import Mathlib

/-!
Verification of the spooky-watcher polling filesystem watcher.

The development shallowly embeds the two Go source files (`event.go`,
`watch.go`).  Maps (`map[string]os.FileInfo`, `map[string]struct{}`) are
embedded as association lists with first-match lookup; Go map iteration
order is unspecified, the embedding fixes list order.  Channel sends are
modelled as appending to an emitted list (the `select` on the closed
channel that aborts a send during shutdown is not taken in steady state).
`os.FileInfo` is an interface value that may be nil; where nil actually
flows (directory-child listing, events) the embedding uses `Option
FileInfo`, and a method call on a nil interface — a Go panic — is
modelled as `Option.none` / a `none` result of the embedding function.
-/

/-- Association-list lookup with Go-map semantics (first match wins;
well-formed maps have distinct keys, see `nodupKeys`). -/
def getk {β : Type} : List (String × β) → String → Option β
  | [], _ => none
  | e :: rest, k => if e.1 = k then some e.2 else getk rest k

/-- Go `delete(m, k)`: drop every entry with key `k`. -/
def erasek {β : Type} : List (String × β) → String → List (String × β)
  | [], _ => []
  | e :: rest, k => if e.1 = k then erasek rest k else e :: erasek rest k

/-- Go `m[k] = v`: overwrite the entry for key `k`. -/
def setk {β : Type} (l : List (String × β)) (k : String) (v : β) :
    List (String × β) :=
  (k, v) :: erasek l k

/-- A well-formed embedded map: every key occurs at most once. -/
def nodupKeys {β : Type} : List (String × β) → Bool
  | [] => true
  | e :: rest => (getk rest e.1).isNone && nodupKeys rest

/-- `Op` from event.go: a `uint32` bitmask. -/
abbrev Op := Nat

namespace Op

/-- event.go: `Create Op = 1 << iota`. -/
def Create : Op := 1
/-- event.go: `Remove`. -/
def Remove : Op := 2
/-- event.go: `Modify`. -/
def Modify : Op := 4
/-- event.go: `Rename`. -/
def Rename : Op := 8
/-- event.go: `Chmod`. -/
def Chmod : Op := 16
/-- event.go: `Move`. -/
def Move : Op := 32

end Op

/-- The data of a non-nil `os.FileInfo` used by watch.go: modification
time (`ModTime`), size, `IsDir`, and the OS identity token (device+inode)
that `os.SameFile` compares. -/
structure FileInfo where
  modTime : Int
  size : Int
  isDir : Bool
  ident : Nat
deriving DecidableEq, Repr

/-- `Event` from event.go.  `FileInfo` is an interface field and may be
nil in Go, hence `Option`. -/
structure Event where
  path : String
  op : Op
  info : Option FileInfo
deriving DecidableEq, Repr

/-- `os.SameFile` on two non-nil `os.FileInfo` values: identity-token
(device+inode) equality. -/
def SameFile (a b : FileInfo) : Bool := a.ident == b.ident

/-- Model of `filepath.Dir` on already-clean slash-separated paths:
everything before the last slash; `"."` when there is no slash; `"/"`
for a root-level entry.  watch.go only ever compares `filepath.Dir`
results for equality. -/
def filepathDir (p : String) : String :=
  match p.toList.reverse.dropWhile (fun c => c ≠ '/') with
  | [] => "."
  | _ :: rest =>
      match rest.reverse with
      | [] => "/"
      | ds => String.mk ds

/-- A snapshot as consumed by the diff engine `pollEvents`: entries with
well-defined (non-nil) metadata.  (An entry whose metadata is nil would
make the Go diff panic at `latestFi.ModTime()`.) -/
abbrev Snap := List (String × FileInfo)

/-- A snapshot as produced by the listing code, where a directory child
whose `Info()` call failed is stored with a nil `os.FileInfo`. -/
abbrev SnapN := List (String × Option FileInfo)

/-- event.go `IsDirEvent`: the argument is a `*Event`; a nil receiver
returns `false`, and a non-nil receiver calls `e.FileInfo.IsDir()`,
which panics (modelled `none`) when the stored interface is nil. -/
def IsDirEvent : Option Event → Option Bool
  | none => some false
  | some e =>
      match e.info with
      | none => none
      | some fi => some fi.isDir

/-- event.go `HasOps`: true iff the event's flags intersect any of the
supplied ops (nil receiver: false). -/
def HasOps (e : Option Event) (ops : List Op) : Bool :=
  match e with
  | none => false
  | some ev => ops.any (fun op => ev.op &&& op != 0)

/-! ## The diff engine (watch.go `pollEvents`) -/

/-- The set `removed` built by `pollEvents`: entries of the previous
snapshot whose path is absent from the current one. -/
def removedSet (prev curr : Snap) : Snap :=
  prev.filter (fun e => (getk curr e.1).isNone)

/-- The set `created` built by `pollEvents`: entries of the current
snapshot whose path is absent from the previous one. -/
def createdSet (prev curr : Snap) : Snap :=
  curr.filter (fun e => (getk prev e.1).isNone)

/-- The Modify events sent while `pollEvents` walks the current
snapshot: for a path present in both snapshots, an event with the
current metadata when `ModTime` or `Size` changed. -/
def modifyEvents (prev : Snap) : Snap → List Event
  | [] => []
  | c :: rest =>
      match getk prev c.1 with
      | none => modifyEvents prev rest
      | some latestFi =>
          if latestFi.modTime != c.2.modTime || latestFi.size != c.2.size then
            ⟨c.1, Op.Modify, some c.2⟩ :: modifyEvents prev rest
          else modifyEvents prev rest

/-- No two entries of a snapshot denote the same underlying file object:
identity tokens are pairwise distinct (no hard links within the set). -/
def uniqueIdents : Snap → Bool
  | [] => true
  | e :: rest =>
      rest.all (fun e2 => e.2.ident != e2.2.ident) && uniqueIdents rest

/-- The single coalesced event built at watch.go lines 168-175: located
at the removed path, carrying the removed (old) metadata, `Rename` when
the two paths share a parent directory and `Move` otherwise. -/
def mkCoalesced (removeFp : String) (removeFi : FileInfo) (createFp : String) :
    Event :=
  ⟨removeFp,
    if filepathDir removeFp = filepathDir createFp then Op.Rename else Op.Move,
    some removeFi⟩

/-- The inner loop of the move/rename pass for one removed entry: scan
the created set; every created entry that is `os.SameFile` with the
removed one yields a coalesced event and is deleted.  The Go loop has no
`break`, so the scan continues past the first match.  Returns the events
sent, the surviving created entries, and whether any match occurred
(i.e. whether the removed entry got deleted). -/
def pairCreated (removeFp : String) (removeFi : FileInfo) :
    Snap → List Event × Snap × Bool
  | [] => ([], [], false)
  | c :: rest =>
      let q := pairCreated removeFp removeFi rest
      if SameFile removeFi c.2 then
        (mkCoalesced removeFp removeFi c.1 :: q.1, q.2.1, true)
      else
        (q.1, c :: q.2.1, q.2.2)

/-- The outer loop of the move/rename pass (watch.go lines 164-186):
returns the coalesced events, the surviving removed entries and the
surviving created entries. -/
def coalesceMoves : Snap → Snap → List Event × Snap × Snap
  | [], created => ([], [], created)
  | r :: rest, created =>
      let p := pairCreated r.1 r.2 created
      let q := coalesceMoves rest p.2.1
      (p.1 ++ q.1, if p.2.2 then q.2.1 else r :: q.2.1, q.2.2)

/-- watch.go `pollEvents`, as the list of events sent on `w.Events`
during one scan cycle over (`w.files` = `prev`, `currFileList` =
`curr`): Modify events while walking `curr`, then the coalesced
Rename/Move events, then Create events for the surviving created
entries, then Remove events for the surviving removed entries. -/
def pollEvents (prev curr : Snap) : List Event :=
  let removed := removedSet prev curr
  let created := createdSet prev curr
  let mods := modifyEvents prev curr
  let cr := coalesceMoves removed created
  mods ++ cr.1
    ++ cr.2.2.map (fun c => ⟨c.1, Op.Create, some c.2⟩)
    ++ cr.2.1.map (fun r => ⟨r.1, Op.Remove, some r.2⟩)

/-! ## The spec-side replay procedure (spec §8, claim C5)

The spec's round-trip property speaks of replaying the diff's events
onto the old snapshot.  This is the spec's notion, not code of the
repository; it follows the spec's words: Create adds an entry, Remove
deletes one, Modify updates metadata.  A Move/Rename event carries only
the removed path and the old metadata — no destination — so no
relocation step is definable from the event's content; replay leaves
the snapshot unchanged on such an event. -/

/-- Spec §8 replay of a single event onto a snapshot. -/
def applyEvent (s : Snap) (e : Event) : Snap :=
  if e.op == Op.Create then
    match e.info with
    | some fi => setk s e.path fi
    | none => s
  else if e.op == Op.Remove then
    erasek s e.path
  else if e.op == Op.Modify then
    match e.info with
    | some fi => setk s e.path fi
    | none => s
  else
    s

/-- Spec §8 replay of an event list onto a snapshot. -/
def replayEvents (s : Snap) (evs : List Event) : Snap :=
  evs.foldl applyEvent s

/-! ## Lifecycle (watch.go `Start` / `Close`) -/

/-- The lifecycle-relevant state of a `Watcher`: the `running` atomic
flag, whether the `closed` channel has been closed, whether the scan
loop goroutine is live, whether the public channels are closed, and the
registry maps. -/
structure WatcherLife where
  running : Int
  closedCh : Bool
  loopRunning : Bool
  eventsClosed : Bool
  errorsClosed : Bool
  names : List String
  files : SnapN
deriving DecidableEq, Repr

/-- watch.go `NewWatcher`: idle, channels open, empty registry. -/
def NewWatcher : WatcherLife :=
  { running := 0, closedCh := false, loopRunning := false,
    eventsClosed := false, errorsClosed := false, names := [], files := [] }

/-- The two lifecycle error values of watch.go. -/
inductive LifeErr where
  | watcherStarted
  | watcherClosed
deriving DecidableEq, Repr

/-- watch.go `Start`: `running.CompareAndSwap(0, 1)` guard, then the
check of the `closed` channel, then the scan goroutine is launched.
(The tick interval plays no role in the lifecycle state.) -/
def Start (w : WatcherLife) : WatcherLife × Option LifeErr :=
  if w.running ≠ 0 then (w, some LifeErr.watcherStarted)
  else
    let w1 := { w with running := 1 }
    if w1.closedCh then (w1, some LifeErr.watcherClosed)
    else ({ w1 with loopRunning := true }, none)

/-- watch.go `Close`: the guard is again `running.CompareAndSwap(0, 1)`
(the source comment reads "already closed"), so the shutdown sequence —
close the `closed` channel, wait for the loop, close `Events` and
`Errors`, clear the registry — runs only when `running` is still 0. -/
def Close (w : WatcherLife) : WatcherLife :=
  if w.running ≠ 0 then w
  else
    { running := 1, closedCh := true, loopRunning := false,
      eventsClosed := true, errorsClosed := true, names := [], files := [] }

/-! ## The listing code (watch.go `listForName`, `listForAll`, `doRemove`)

The filesystem is abstracted as stat/readDir oracles.  Error values are
modelled after what the Go code actually constructs: `os.Stat` and
`os.ReadDir` return typed `*PathError`s carrying a cause, while
`fmt.Errorf` with a `%v` verb — which is what `listForName` uses to wrap
them — produces an untyped plain string error with no `Unwrap` method.
`os.IsNotExist` only recognises os-typed errors (it predates
`errors.Is` and does not walk wrapper chains), so it reports `false` on
every error `listForName` returns. -/

/-- The cause carried by an os-level error. -/
inductive FsError where
  | notExist
  | permission
  | ioError
deriving DecidableEq, Repr

/-- Rendering of an os error used when it is formatted with `%v`. -/
def fsErrorText : FsError → String
  | FsError.notExist => "file does not exist"
  | FsError.permission => "permission denied"
  | FsError.ioError => "input/output error"

/-- A Go error value as it occurs in watch.go: either a typed os error
(`*PathError` with a cause), or the plain string error produced by
`fmt.Errorf` with `%v`. -/
inductive GoErr where
  | osPathError (op : String) (path : String) (cause : FsError)
  | fmtError (msg : String)
deriving DecidableEq, Repr

/-- `os.IsNotExist`: unwraps the os-typed error layer and compares the
cause against `ErrNotExist`; an untyped string error (the result of
wrapping with `fmt.Errorf` `%v`) is never recognised. -/
def isNotExist : GoErr → Bool
  | GoErr.osPathError _ _ cause => cause == FsError.notExist
  | GoErr.fmtError _ => false

/-- A directory entry as returned by `os.ReadDir`; `info` is the result
of `dirEntry.Info()`, `none` when that call fails. -/
structure DirEntry where
  name : String
  info : Option FileInfo
deriving DecidableEq, Repr

/-- The filesystem oracle backing `os.Stat` and `os.ReadDir`. -/
structure Fs where
  stat : String → Except FsError FileInfo
  readDir : String → Except FsError (List DirEntry)

/-- Model of `filepath.Join(name, entryName)` on clean paths. -/
def pathJoin (name entryName : String) : String :=
  name ++ "/" ++ entryName

/-- The child loop of `listForName`: for each directory entry, store
`list[filepath.Join(name, e.Name())] = e.Info()`, keeping a nil value
when `Info()` failed (the error is discarded with `_`). -/
def addEntries (name : String) (base : SnapN) : List DirEntry → SnapN
  | [] => base
  | d :: rest => addEntries name (setk base (pathJoin name d.name) d.info) rest

/-- watch.go `listForName`: stat the target (wrapping a failure with
`fmt.Errorf` `%v`), record it, and for a directory also record every
direct child (wrapping a `ReadDir` failure the same way). -/
def listForName (fs : Fs) (name : String) : Except GoErr SnapN :=
  match fs.stat name with
  | Except.error e =>
      Except.error (GoErr.fmtError
        ("name " ++ name ++ " with error " ++ fsErrorText e))
  | Except.ok stat =>
      let base : SnapN := [(name, some stat)]
      if !stat.isDir then Except.ok base
      else
        match fs.readDir name with
        | Except.error e =>
            Except.error (GoErr.fmtError
              ("directory " ++ name ++ " with error " ++ fsErrorText e))
        | Except.ok entries => Except.ok (addEntries name base entries)

/-- watch.go `doRemove`: drop the name from the target set; if it has a
snapshot entry, drop that, and when the entry is a directory also drop
every entry whose parent directory is exactly the name.  A nil snapshot
entry would panic at `fi.IsDir()`; that case is `none`. -/
def doRemove (names : List String) (files : SnapN) (name : String) :
    Option (List String × SnapN) :=
  let names2 := names.filter (fun n => n ≠ name)
  match getk files name with
  | none => some (names2, files)
  | some finfo =>
      let files2 := erasek files name
      match finfo with
      | none => none
      | some fi =>
          if !fi.isDir then some (names2, files2)
          else some (names2, files2.filter (fun e => filepathDir e.1 ≠ name))

/-- Merge a fresh per-target listing into the accumulated file list
(`fileList[fp] = fi` for each entry). -/
def insertAll (base : SnapN) (l : SnapN) : SnapN :=
  l.foldl (fun acc e => setk acc e.1 e.2) base

/-- The outcome of one `listForAll` call: the fresh snapshot it returns,
the errors sent on `w.Errors`, and the registry state it leaves behind. -/
structure ScanOut where
  fileList : SnapN
  errs : List GoErr
  names : List String
  files : SnapN
deriving DecidableEq, Repr

/-- The loop body of `listForAll` over the registered names: a failed
listing is deregistered only when `os.IsNotExist` recognises the error,
and is then reported on the error channel; a successful listing is
merged into the fresh snapshot.  `none` models a Go panic inside
`doRemove`. -/
def scanNames (fs : Fs) :
    List String → List String → SnapN → SnapN → List GoErr → Option ScanOut
  | [], names, files, fileList, errs => some ⟨fileList, errs, names, files⟩
  | name :: rest, names, files, fileList, errs =>
      match listForName fs name with
      | Except.error e =>
          let st := if isNotExist e then doRemove names files name
                    else some (names, files)
          match st with
          | none => none
          | some (names2, files2) =>
              scanNames fs rest names2 files2 fileList (errs ++ [e])
      | Except.ok fl =>
          scanNames fs rest names files (insertAll fileList fl) errs

/-- watch.go `listForAll` on a watcher whose registry holds `names` and
`files`. -/
def listForAll (fs : Fs) (names : List String) (files : SnapN) :
    Option ScanOut :=
  scanNames fs names names files [] []

/-- The metadata-or-nil that the last directory entry with a given
joined path contributes in `addEntries` (later `os.ReadDir` entries
overwrite earlier ones with the same joined path). -/
def lastInfo (name k : String) : List DirEntry → Option (Option FileInfo)
  | [] => none
  | d :: rest =>
      match lastInfo name k rest with
      | some i => some i
      | none => if pathJoin name d.name = k then some d.info else none

/-- A plain file at mod time 10, size 5, identity token 1. -/
def fi1 : FileInfo := ⟨10, 5, false, 1⟩
/-- The same underlying file object as `fi1` (identity token 1), seen at
a later mod time — e.g. a hard link or the file after a move. -/
def fi2 : FileInfo := ⟨11, 5, false, 1⟩
/-- A third sighting of identity token 1. -/
def fi3 : FileInfo := ⟨12, 5, false, 1⟩
/-- An unrelated file (identity token 2). -/
def fiOther : FileInfo := ⟨13, 7, false, 2⟩
/-- A directory (identity token 9). -/
def fiDir : FileInfo := ⟨1, 0, true, 9⟩

/-- A filesystem where every path has vanished: `os.Stat` always fails
with the not-exist cause. -/
def fsGone : Fs :=
  ⟨fun _ => Except.error FsError.notExist,
    fun _ => Except.error FsError.notExist⟩

/-- The `os.ReadDir` result used in the listing examples: children `a`
and `b` stat fine, child `c`'s `Info()` call fails. -/
def entriesD : List DirEntry :=
  [⟨"a", some fi1⟩, ⟨"c", none⟩, ⟨"b", some fiOther⟩]

/-- A filesystem with one directory `d` whose child `c` fails to stat. -/
def fsChild : Fs :=
  ⟨fun n => if n = "d" then Except.ok fiDir else Except.error FsError.notExist,
    fun n => if n = "d" then Except.ok entriesD
      else Except.error FsError.ioError⟩

/-! ## Association-list lemmas -/

theorem getk_some_mem {β : Type} {l : List (String × β)} {k : String} {v : β}
    (h : getk l k = some v) : (k, v) ∈ l := by
  induction l with
  | nil => simp [getk] at h
  | cons e rest ih =>
      obtain ⟨a, b⟩ := e
      simp only [getk] at h
      split at h
      · rename_i heq
        have hak : a = k := heq
        injection h with hbv
        subst hbv
        subst hak
        exact List.mem_cons_self _ _
      · exact List.mem_cons_of_mem _ (ih h)

theorem getk_none_not_mem {β : Type} {l : List (String × β)} {k : String}
    (h : getk l k = none) : ∀ e ∈ l, e.1 ≠ k := by
  induction l with
  | nil => simp
  | cons e rest ih =>
      simp only [getk] at h
      split at h
      · cases h
      · rename_i hne
        intro x hx
        rcases List.mem_cons.mp hx with hx1 | hx1
        · subst hx1; exact hne
        · exact ih h x hx1

theorem not_mem_getk_none {β : Type} {l : List (String × β)} {k : String}
    (h : ∀ e ∈ l, e.1 ≠ k) : getk l k = none := by
  induction l with
  | nil => rfl
  | cons e rest ih =>
      simp only [getk]
      rw [if_neg (h e (List.mem_cons_self e rest))]
      exact ih (fun x hx => h x (List.mem_cons_of_mem _ hx))

theorem getk_sublist_none {β : Type} {l l' : List (String × β)} {k : String}
    (hs : l'.Sublist l) (h : getk l k = none) : getk l' k = none :=
  not_mem_getk_none (fun e he => getk_none_not_mem h e (hs.mem he))

theorem getk_erasek {β : Type} (l : List (String × β)) (k k2 : String) :
    getk (erasek l k) k2 = if k2 = k then none else getk l k2 := by
  induction l with
  | nil => simp [erasek, getk]
  | cons e rest ih =>
      simp only [erasek]
      by_cases h1 : e.1 = k
      · rw [if_pos h1, ih]
        by_cases h2 : k2 = k
        · simp [h2]
        · rw [if_neg h2, if_neg h2, getk, if_neg]
          intro hek2
          exact h2 (by rw [← hek2, h1])
      · rw [if_neg h1]
        by_cases h2 : k2 = k
        · rw [if_pos h2, getk, if_neg, ih, if_pos h2]
          intro hek2
          exact h1 (by rw [hek2, h2])
        · rw [if_neg h2, getk, getk, ih, if_neg h2]

theorem getk_setk {β : Type} (l : List (String × β)) (k k2 : String) (v : β) :
    getk (setk l k v) k2 = if k2 = k then some v else getk l k2 := by
  by_cases h : k2 = k
  · subst h
    simp [setk, getk]
  · have h2 : ¬ ((k, v).1 = k2) := fun hh => h (by simpa using hh.symm)
    simp only [setk, getk, getk_erasek]
    rw [if_neg h2, if_neg h, if_neg h]

theorem getk_filter_none {β : Type} {l : List (String × β)} {k : String}
    (f : String × β → Bool) (h : getk l k = none) :
    getk (l.filter f) k = none :=
  not_mem_getk_none (fun e he =>
    getk_none_not_mem h e (List.mem_of_mem_filter he))

theorem nodupKeys_filter {β : Type} {l : List (String × β)}
    (f : String × β → Bool) (h : nodupKeys l = true) :
    nodupKeys (l.filter f) = true := by
  induction l with
  | nil => rfl
  | cons e rest ih =>
      simp only [nodupKeys, Bool.and_eq_true] at h
      rw [List.filter_cons]
      split
      · simp only [nodupKeys, Bool.and_eq_true]
        refine ⟨?_, ih h.2⟩
        have := getk_filter_none f (Option.isNone_iff_eq_none.mp h.1)
        rw [this]
        rfl
      · exact ih h.2

theorem getk_filter_first {β : Type} {l : List (String × β)} {k : String}
    {v : β} {f : String × β → Bool}
    (h : getk l k = some v) (hf : f (k, v) = true) :
    getk (l.filter f) k = some v := by
  induction l with
  | nil => simp [getk] at h
  | cons e rest ih =>
      obtain ⟨a, b⟩ := e
      simp only [getk] at h
      rw [List.filter_cons]
      split at h
      · rename_i heq
        have hak : a = k := heq
        injection h with hbv
        subst hbv
        subst hak
        have hf2 : f (a, b) = true := hf
        rw [if_pos hf2]
        simp [getk]
      · rename_i hne
        split
        · simp only [getk]
          rw [if_neg hne]
          exact ih h
        · exact ih h

theorem getk_filter_out {β : Type} {l : List (String × β)} {k : String}
    {v : β} {f : String × β → Bool}
    (hn : nodupKeys l = true) (h : getk l k = some v) (hf : f (k, v) = false) :
    getk (l.filter f) k = none := by
  induction l with
  | nil => simp [getk] at h
  | cons e rest ih =>
      simp only [nodupKeys, Bool.and_eq_true] at hn
      obtain ⟨a, b⟩ := e
      simp only [getk] at h
      rw [List.filter_cons]
      split at h
      · rename_i heq
        have hak : a = k := heq
        injection h with hbv
        subst hbv
        subst hak
        have hf2 : f (a, b) = false := hf
        rw [hf2]
        simp only [Bool.false_eq_true, if_false]
        exact getk_filter_none f (Option.isNone_iff_eq_none.mp hn.1)
      · rename_i hne
        split
        · simp only [getk]
          rw [if_neg hne]
          exact ih hn.2 h
        · exact ih hn.2 h

/-! ## Diff-engine lemmas -/

theorem filter_length_split {α : Type} (p : α → Bool) (l : List α) :
    (l.filter p).length + (l.filter (fun x => !p x)).length = l.length := by
  induction l with
  | nil => rfl
  | cons x rest ih =>
      by_cases h : p x = true
      · simp [List.filter_cons, h, ih]
        omega
      · have h2 : p x = false := by
          cases hpx : p x
          · rfl
          · exact absurd hpx h
        simp [List.filter_cons, h2, ih]
        omega

theorem pairCreated_eq (rfp : String) (rfi : FileInfo) (created : Snap) :
    pairCreated rfp rfi created =
      ((created.filter (fun c => SameFile rfi c.2)).map
          (fun c => mkCoalesced rfp rfi c.1),
        created.filter (fun c => !SameFile rfi c.2),
        created.any (fun c => SameFile rfi c.2)) := by
  induction created with
  | nil => rfl
  | cons c rest ih =>
      simp only [pairCreated, ih, List.filter_cons, List.any_cons]
      by_cases h : SameFile rfi c.2 = true
      · simp [h]
      · simp [h]

theorem coalesceMoves_len (r : Snap) : ∀ c : Snap,
    (coalesceMoves r c).1.length + (coalesceMoves r c).2.2.length =
      c.length := by
  induction r with
  | nil => intro c; simp [coalesceMoves]
  | cons x rest ih =>
      intro c
      simp only [coalesceMoves, pairCreated_eq, List.length_append,
        List.length_map]
      have h2 := ih (c.filter (fun cc => !SameFile x.2 cc.2))
      have h3 := filter_length_split (fun cc => SameFile x.2 cc.2) c
      omega

theorem coalesceMoves_created_sublist (r : Snap) : ∀ c : Snap,
    (coalesceMoves r c).2.2.Sublist c := by
  induction r with
  | nil => intro c; exact List.Sublist.refl c
  | cons x rest ih =>
      intro c
      simp only [coalesceMoves, pairCreated_eq]
      exact (ih _).trans (List.filter_sublist c)

theorem coalesceMoves_events (r : Snap) : ∀ c : Snap,
    ∀ e ∈ (coalesceMoves r c).1,
      ∃ x ∈ r, ∃ cfp, e = mkCoalesced x.1 x.2 cfp := by
  induction r with
  | nil => intro c e he; cases he
  | cons x rest ih =>
      intro c e he
      simp only [coalesceMoves, pairCreated_eq, List.mem_append] at he
      rcases he with he | he
      · rcases List.mem_map.mp he with ⟨cc, _, hcc⟩
        exact ⟨x, List.mem_cons_self x rest, cc.1, hcc.symm⟩
      · rcases ih _ e he with ⟨y, hy, cfp, hmk⟩
        exact ⟨y, List.mem_cons_of_mem _ hy, cfp, hmk⟩

theorem coalesceMoves_removed_mem (r : Snap) : ∀ c : Snap,
    ∀ x ∈ (coalesceMoves r c).2.1, x ∈ r := by
  induction r with
  | nil => intro c x hx; cases hx
  | cons y rest ih =>
      intro c x hx
      simp only [coalesceMoves] at hx
      split at hx
      · exact List.mem_cons_of_mem _ (ih _ x hx)
      · rcases List.mem_cons.mp hx with hx1 | hx1
        · subst hx1; exact List.mem_cons_self _ _
        · exact List.mem_cons_of_mem _ (ih _ x hx1)

theorem coalesceMoves_noMatch (r : Snap) : ∀ c : Snap,
    (∀ x ∈ r, ∀ cc ∈ c, SameFile x.2 cc.2 = false) →
    coalesceMoves r c = ([], r, c) := by
  induction r with
  | nil => intro c _; rfl
  | cons x rest ih =>
      intro c h
      have hx : ∀ cc ∈ c, SameFile x.2 cc.2 = false :=
        fun cc hcc => h x (List.mem_cons_self x rest) cc hcc
      have hfil : c.filter (fun cc => SameFile x.2 cc.2) = [] := by
        rw [List.filter_eq_nil_iff]
        intro cc hcc
        simp [hx cc hcc]
      have hfil2 : c.filter (fun cc => !SameFile x.2 cc.2) = c := by
        rw [List.filter_eq_self]
        intro cc hcc
        simp [hx cc hcc]
      have hany : c.any (fun cc => SameFile x.2 cc.2) = false := by
        rw [List.any_eq_false]
        intro cc hcc
        simp [hx cc hcc]
      have hrest := ih c (fun y hy cc hcc =>
        h y (List.mem_cons_of_mem _ hy) cc hcc)
      simp only [coalesceMoves, pairCreated_eq, hfil, hfil2, hany, hrest,
        List.map_nil, List.nil_append]
      rfl

theorem mkCoalesced_op (rfp : String) (rfi : FileInfo) (cfp : String) :
    (mkCoalesced rfp rfi cfp).op = Op.Rename ∨
      (mkCoalesced rfp rfi cfp).op = Op.Move := by
  simp only [mkCoalesced]
  split
  · exact Or.inl rfl
  · exact Or.inr rfl

theorem coalesceMoves_events_op (r c : Snap) :
    ∀ e ∈ (coalesceMoves r c).1, e.op = Op.Rename ∨ e.op = Op.Move := by
  intro e he
  rcases coalesceMoves_events r c e he with ⟨x, _, cfp, hmk⟩
  rw [hmk]
  exact mkCoalesced_op x.1 x.2 cfp

/-! ## Modify-event lemmas -/

theorem modifyEvents_mem {prev : Snap} {e : Event} : ∀ {curr : Snap},
    e ∈ modifyEvents prev curr ↔
      ∃ c ∈ curr, ∃ lfi, getk prev c.1 = some lfi ∧
        (lfi.modTime != c.2.modTime || lfi.size != c.2.size) = true ∧
        e = ⟨c.1, Op.Modify, some c.2⟩ := by
  intro curr
  induction curr with
  | nil => simp [modifyEvents]
  | cons c rest ih =>
      rcases hg : getk prev c.1 with _ | lfi
      · simp only [modifyEvents, hg, ih, List.mem_cons]
        constructor
        · rintro ⟨cc, hcc, lfi, h1, h2, h3⟩
          exact ⟨cc, Or.inr hcc, lfi, h1, h2, h3⟩
        · rintro ⟨cc, hcc | hcc, lfi, h1, h2, h3⟩
          · subst hcc; rw [hg] at h1; cases h1
          · exact ⟨cc, hcc, lfi, h1, h2, h3⟩
      · by_cases hcond :
            (lfi.modTime != c.2.modTime || lfi.size != c.2.size) = true
        · simp only [modifyEvents, hg, if_pos hcond, List.mem_cons, ih]
          constructor
          · rintro (he | ⟨cc, hcc, lfi2, h1, h2, h3⟩)
            · exact ⟨c, Or.inl rfl, lfi, hg, hcond, he⟩
            · exact ⟨cc, Or.inr hcc, lfi2, h1, h2, h3⟩
          · rintro ⟨cc, hcc | hcc, lfi2, h1, h2, h3⟩
            · subst hcc
              rw [hg] at h1
              injection h1 with h1
              subst h1
              exact Or.inl h3
            · exact Or.inr ⟨cc, hcc, lfi2, h1, h2, h3⟩
        · simp only [modifyEvents, hg, if_neg hcond, ih, List.mem_cons]
          constructor
          · rintro ⟨cc, hcc, lfi2, h1, h2, h3⟩
            exact ⟨cc, Or.inr hcc, lfi2, h1, h2, h3⟩
          · rintro ⟨cc, hcc | hcc, lfi2, h1, h2, h3⟩
            · subst hcc
              rw [hg] at h1
              injection h1 with h1
              subst h1
              exact absurd h2 hcond
            · exact ⟨cc, hcc, lfi2, h1, h2, h3⟩

theorem modifyEvents_op {prev curr : Snap} {e : Event}
    (h : e ∈ modifyEvents prev curr) : e.op = Op.Modify := by
  rcases modifyEvents_mem.mp h with ⟨c, _, lfi, _, _, he⟩
  rw [he]

theorem modifyEvents_filter_none_right {prev curr : Snap} {p : String}
    (h : getk curr p = none) :
    (modifyEvents prev curr).filter (fun e => e.path == p) = [] := by
  rw [List.filter_eq_nil_iff]
  intro e he
  rcases modifyEvents_mem.mp he with ⟨c, hc, _, _, _, hep⟩
  have : c.1 ≠ p := getk_none_not_mem h c hc
  rw [hep]
  simpa using this

theorem modifyEvents_filter_none_left {prev curr : Snap} {p : String}
    (h : getk prev p = none) :
    (modifyEvents prev curr).filter (fun e => e.path == p) = [] := by
  rw [List.filter_eq_nil_iff]
  intro e he
  rcases modifyEvents_mem.mp he with ⟨c, _, lfi, hg, _, hep⟩
  have hne : c.1 ≠ p := by
    intro hcp
    rw [hcp, h] at hg
    cases hg
  rw [hep]
  simpa using hne

theorem modifyEvents_filter_eq {prev : Snap} {p : String} {lfi cfi : FileInfo}
    (hp : getk prev p = some lfi) : ∀ {curr : Snap},
    nodupKeys curr = true → getk curr p = some cfi →
    (modifyEvents prev curr).filter (fun e => e.path == p) =
      (if lfi.modTime != cfi.modTime || lfi.size != cfi.size then
        [⟨p, Op.Modify, some cfi⟩]
      else []) := by
  intro curr
  induction curr with
  | nil => intro _ hc; simp [getk] at hc
  | cons c rest ih =>
      intro hn hc
      simp only [nodupKeys, Bool.and_eq_true] at hn
      simp only [getk] at hc
      by_cases hcp : c.1 = p
      · rw [if_pos hcp] at hc
        injection hc with hc
        have hrest : getk rest p = none := by
          rw [← hcp]
          exact Option.isNone_iff_eq_none.mp hn.1
        have htail : (modifyEvents prev rest).filter (fun e => e.path == p)
            = [] := modifyEvents_filter_none_right hrest
        have hgp : getk prev c.1 = some lfi := by rw [hcp]; exact hp
        simp only [modifyEvents, hgp]
        rw [hcp, hc]
        by_cases hcond :
            (lfi.modTime != cfi.modTime || lfi.size != cfi.size) = true
        · simp only [if_pos hcond]
          rw [List.filter_cons]
          have hpe : ((⟨p, Op.Modify, some cfi⟩ : Event).path == p) = true := by
            simp
          rw [if_pos hpe, htail]
        · simp only [if_neg hcond]
          exact htail
      · rw [if_neg hcp] at hc
        have htail := ih hn.2 hc
        rcases hg : getk prev c.1 with _ | lfi2
        · simp only [modifyEvents, hg]
          exact htail
        · simp only [modifyEvents, hg]
          split
          · rw [List.filter_cons]
            have hpe :
                ¬ (((⟨c.1, Op.Modify, some c.2⟩ : Event).path == p) = true) := by
              simpa using hcp
            rw [if_neg hpe]
            exact htail
          · exact htail

/-! ## Create/Remove segment and replay lemmas -/

theorem mapEvents_filter_none {l : Snap} {p : String} (op0 : Op)
    (h : getk l p = none) :
    (l.map (fun x => (⟨x.1, op0, some x.2⟩ : Event))).filter
      (fun e => e.path == p) = [] := by
  rw [List.filter_eq_nil_iff]
  intro e he
  rcases List.mem_map.mp he with ⟨x, hx, hxe⟩
  have := getk_none_not_mem h x hx
  rw [← hxe]
  simpa using this

theorem mapEvents_filter_some {p : String} {v : FileInfo} (op0 : Op) :
    ∀ {l : Snap}, nodupKeys l = true → getk l p = some v →
    (l.map (fun x => (⟨x.1, op0, some x.2⟩ : Event))).filter
      (fun e => e.path == p) = [⟨p, op0, some v⟩] := by
  intro l
  induction l with
  | nil => intro _ h; simp [getk] at h
  | cons x rest ih =>
      intro hn h
      simp only [nodupKeys, Bool.and_eq_true] at hn
      simp only [getk] at h
      rw [List.map_cons, List.filter_cons]
      by_cases hxp : x.1 = p
      · rw [if_pos hxp] at h
        injection h with h
        have hrest : getk rest p = none := by
          rw [← hxp]
          exact Option.isNone_iff_eq_none.mp hn.1
        have htail := mapEvents_filter_none op0 hrest
        have hpe : ((⟨x.1, op0, some x.2⟩ : Event).path == p) = true := by
          simpa using hxp
        rw [if_pos hpe, htail, hxp, h]
      · rw [if_neg hxp] at h
        have hpe : ¬ (((⟨x.1, op0, some x.2⟩ : Event).path == p) = true) := by
          simpa using hxp
        rw [if_neg hpe]
        exact ih hn.2 h

theorem getk_applyEvent_ne {s : Snap} {e : Event} {p : String}
    (h : e.path ≠ p) : getk (applyEvent s e) p = getk s p := by
  have hps : ¬ (p = e.path) := fun hh => h hh.symm
  simp only [applyEvent]
  split
  · split
    · rw [getk_setk, if_neg hps]
    · rfl
  · split
    · rw [getk_erasek, if_neg hps]
    · split
      · split
        · rw [getk_setk, if_neg hps]
        · rfl
      · rfl

theorem replayEvents_filter_nil {p : String} : ∀ {evs : List Event} (s : Snap),
    evs.filter (fun e => e.path == p) = [] →
    getk (replayEvents s evs) p = getk s p := by
  intro evs
  induction evs with
  | nil => intro s _; rfl
  | cons e rest ih =>
      intro s h
      rw [List.filter_cons] at h
      by_cases hep : (e.path == p) = true
      · rw [if_pos hep] at h; cases h
      · rw [if_neg hep] at h
        have hne : e.path ≠ p := by simpa using hep
        exact (ih (applyEvent s e) h).trans (getk_applyEvent_ne hne)

theorem replayEvents_filter_single_upd {p : String} {fi : FileInfo}
    {e0 : Event} (hpath : e0.path = p)
    (hop : e0.op = Op.Create ∨ e0.op = Op.Modify) (hinfo : e0.info = some fi) :
    ∀ {evs : List Event} (s : Snap),
    evs.filter (fun e => e.path == p) = [e0] →
    getk (replayEvents s evs) p = some fi := by
  intro evs
  induction evs with
  | nil => intro s h; cases h
  | cons e rest ih =>
      intro s h
      rw [List.filter_cons] at h
      by_cases hep : (e.path == p) = true
      · rw [if_pos hep] at h
        injection h with h1 h2
        subst h1
        have hnil := replayEvents_filter_nil (applyEvent s e) h2
        refine hnil.trans ?_
        rcases hop with hop | hop
        · simp [applyEvent, hop, hinfo, getk_setk, hpath, Op.Create]
        · simp [applyEvent, hop, hinfo, getk_setk, hpath, Op.Create,
            Op.Remove, Op.Modify]
      · rw [if_neg hep] at h
        exact ih (applyEvent s e) h

theorem replayEvents_filter_single_del {p : String} {e0 : Event}
    (hpath : e0.path = p) (hop : e0.op = Op.Remove) :
    ∀ {evs : List Event} (s : Snap),
    evs.filter (fun e => e.path == p) = [e0] →
    getk (replayEvents s evs) p = none := by
  intro evs
  induction evs with
  | nil => intro s h; cases h
  | cons e rest ih =>
      intro s h
      rw [List.filter_cons] at h
      by_cases hep : (e.path == p) = true
      · rw [if_pos hep] at h
        injection h with h1 h2
        subst h1
        have hnil := replayEvents_filter_nil (applyEvent s e) h2
        refine hnil.trans ?_
        simp [applyEvent, hop, getk_erasek, hpath, Op.Create, Op.Remove]
      · rw [if_neg hep] at h
        exact ih (applyEvent s e) h

theorem getk_filter_key {β : Type} (l : List (String × β)) (p : String)
    (fk : String → Bool) :
    getk (l.filter (fun e => fk e.1)) p = if fk p then getk l p else none := by
  by_cases hp : fk p = true
  · rw [if_pos hp]
    rcases hg : getk l p with _ | v
    · exact getk_filter_none _ hg
    · exact getk_filter_first hg hp
  · rw [if_neg hp]
    refine not_mem_getk_none (fun e he hep => ?_)
    have hfk : fk e.1 = true := by
      have := List.of_mem_filter he
      simpa using this
    rw [hep] at hfk
    exact hp hfk

theorem getk_removedSet (prev curr : Snap) (p : String) :
    getk (removedSet prev curr) p =
      if (getk curr p).isNone then getk prev p else none :=
  getk_filter_key prev p (fun x => (getk curr x).isNone)

theorem getk_createdSet (prev curr : Snap) (p : String) :
    getk (createdSet prev curr) p =
      if (getk prev p).isNone then getk curr p else none :=
  getk_filter_key curr p (fun x => (getk prev x).isNone)

/-! ## The round-trip replay theorem (claim C5, amended) -/

theorem pollEvents_noCoalesce (prev curr : Snap)
    (hno : ∀ r ∈ removedSet prev curr, ∀ c ∈ createdSet prev curr,
      SameFile r.2 c.2 = false) :
    pollEvents prev curr =
      modifyEvents prev curr
        ++ (createdSet prev curr).map
            (fun c => (⟨c.1, Op.Create, some c.2⟩ : Event))
        ++ (removedSet prev curr).map
            (fun r => (⟨r.1, Op.Remove, some r.2⟩ : Event)) := by
  have hco := coalesceMoves_noMatch (removedSet prev curr)
    (createdSet prev curr) hno
  simp only [pollEvents, hco]
  simp

theorem replay_reconstructs (prev curr : Snap)
    (hnp : nodupKeys prev = true) (hnc : nodupKeys curr = true)
    (hno : ∀ r ∈ removedSet prev curr, ∀ c ∈ createdSet prev curr,
      SameFile r.2 c.2 = false)
    (hdet : ∀ pe ∈ prev, ∀ ce ∈ curr, pe.1 = ce.1 →
      pe.2.modTime = ce.2.modTime → pe.2.size = ce.2.size → pe.2 = ce.2)
    (p : String) :
    getk (replayEvents prev (pollEvents prev curr)) p = getk curr p := by
  have hpoll := pollEvents_noCoalesce prev curr hno
  have hfa : (pollEvents prev curr).filter (fun e => e.path == p) =
      (modifyEvents prev curr).filter (fun e => e.path == p)
        ++ ((createdSet prev curr).map
            (fun c => (⟨c.1, Op.Create, some c.2⟩ : Event))).filter
            (fun e => e.path == p)
        ++ ((removedSet prev curr).map
            (fun r => (⟨r.1, Op.Remove, some r.2⟩ : Event))).filter
            (fun e => e.path == p) := by
    rw [hpoll, List.filter_append, List.filter_append]
  rcases hgp : getk prev p with _ | lfi <;> rcases hgc : getk curr p with _ | cfi
  · -- path in neither snapshot: no event touches it
    have h1 := @modifyEvents_filter_none_left prev curr p hgp
    have h2 : getk (createdSet prev curr) p = none := by
      rw [getk_createdSet, hgp, hgc]
      simp
    have h3 : getk (removedSet prev curr) p = none := by
      rw [getk_removedSet, hgp, hgc]
      simp
    rw [h1, mapEvents_filter_none _ h2, mapEvents_filter_none _ h3] at hfa
    simp only [List.append_nil] at hfa
    rw [replayEvents_filter_nil prev hfa, hgp]
  · -- created path: exactly the Create event
    have h1 := @modifyEvents_filter_none_left prev curr p hgp
    have h2 : getk (createdSet prev curr) p = some cfi := by
      rw [getk_createdSet, hgp, hgc]
      simp
    have h3 : getk (removedSet prev curr) p = none := by
      rw [getk_removedSet, hgc]
      simp
    have hnc2 : nodupKeys (createdSet prev curr) = true :=
      nodupKeys_filter _ hnc
    rw [h1, mapEvents_filter_some Op.Create hnc2 h2,
      mapEvents_filter_none _ h3] at hfa
    simp only [List.nil_append, List.append_nil] at hfa
    exact @replayEvents_filter_single_upd p cfi ⟨p, Op.Create, some cfi⟩
      rfl (Or.inl rfl) rfl _ prev hfa
  · -- removed path: exactly the Remove event
    have h1 := @modifyEvents_filter_none_right prev curr p hgc
    have h2 : getk (createdSet prev curr) p = none := by
      rw [getk_createdSet, hgp]
      simp
    have h3 : getk (removedSet prev curr) p = some lfi := by
      rw [getk_removedSet, hgp, hgc]
      simp
    have hnp2 : nodupKeys (removedSet prev curr) = true :=
      nodupKeys_filter _ hnp
    rw [h1, mapEvents_filter_none _ h2,
      mapEvents_filter_some Op.Remove hnp2 h3] at hfa
    simp only [List.nil_append] at hfa
    exact @replayEvents_filter_single_del p ⟨p, Op.Remove, some lfi⟩
      rfl rfl _ prev hfa
  · -- surviving path: Modify event or metadata equality
    have h2 : getk (createdSet prev curr) p = none := by
      rw [getk_createdSet, hgp]
      simp
    have h3 : getk (removedSet prev curr) p = none := by
      rw [getk_removedSet, hgc]
      simp
    have h1 := modifyEvents_filter_eq hgp hnc hgc
    by_cases hcond : (lfi.modTime != cfi.modTime || lfi.size != cfi.size) = true
    · rw [if_pos hcond] at h1
      rw [h1, mapEvents_filter_none _ h2, mapEvents_filter_none _ h3] at hfa
      simp only [List.append_nil] at hfa
      exact @replayEvents_filter_single_upd p cfi ⟨p, Op.Modify, some cfi⟩
        rfl (Or.inr rfl) rfl _ prev hfa
    · rw [if_neg hcond] at h1
      rw [h1, mapEvents_filter_none _ h2, mapEvents_filter_none _ h3] at hfa
      simp only [List.append_nil] at hfa
      rw [replayEvents_filter_nil prev hfa, hgp]
      have hmem1 := getk_some_mem hgp
      have hmem2 := getk_some_mem hgc
      simp only [Bool.or_eq_true, not_or, Bool.not_eq_true,
        bne_eq_false_iff_eq] at hcond
      exact congrArg some
        (hdet (p, lfi) hmem1 (p, cfi) hmem2 rfl hcond.1 hcond.2)

/-! ## Unique-identity pairing lemmas (claim C4, amended) -/

theorem mkCoalesced_path (a : String) (fi : FileInfo) (c : String) :
    (mkCoalesced a fi c).path = a := rfl

theorem filter_sameFile_unique {rfi cfi : FileInfo} {cp : String}
    (hid : SameFile rfi cfi = true) : ∀ {l : Snap},
    uniqueIdents l = true → (cp, cfi) ∈ l →
    l.filter (fun c => SameFile rfi c.2) = [(cp, cfi)] := by
  have hideq : rfi.ident = cfi.ident := by simpa [SameFile] using hid
  intro l
  induction l with
  | nil => intro _ hm; cases hm
  | cons e rest ih =>
      intro hu hm
      simp only [uniqueIdents, Bool.and_eq_true, List.all_eq_true] at hu
      rw [List.filter_cons]
      rcases List.mem_cons.mp hm with hm1 | hm1
      · subst hm1
        rw [if_pos (by simpa [SameFile] using hideq)]
        have htail : rest.filter (fun c => SameFile rfi c.2) = [] := by
          rw [List.filter_eq_nil_iff]
          intro c hc
          have := hu.1 c hc
          simp only [bne_iff_ne, ne_eq] at this
          simp [SameFile, hideq]
          exact fun hh => this (by rw [hh])
        rw [htail]
      · have hne : e.2.ident ≠ cfi.ident := by
          have := hu.1 (cp, cfi) hm1
          simpa [bne_iff_ne] using this
        have hsf : ¬ (SameFile rfi e.2 = true) := by
          simp only [SameFile, beq_iff_eq, hideq]
          exact fun hh => hne hh.symm
        rw [if_neg hsf]
        exact ih hu.2 hm1

theorem uniqueIdents_filter (f : String × FileInfo → Bool) :
    ∀ {l : Snap}, uniqueIdents l = true →
    uniqueIdents (l.filter f) = true := by
  intro l
  induction l with
  | nil => intro _; rfl
  | cons e rest ih =>
      intro hu
      simp only [uniqueIdents, Bool.and_eq_true, List.all_eq_true] at hu
      rw [List.filter_cons]
      split
      · simp only [uniqueIdents, Bool.and_eq_true, List.all_eq_true]
        refine ⟨fun c hc => hu.1 c (List.mem_of_mem_filter hc), ih hu.2⟩
      · exact ih hu.2

theorem coalesceMoves_unique_pair {rp cp : String} {rfi cfi : FileInfo}
    (hid : SameFile rfi cfi = true) : ∀ {r : Snap} {c : Snap},
    nodupKeys r = true → nodupKeys c = true →
    uniqueIdents r = true → uniqueIdents c = true →
    getk r rp = some rfi → getk c cp = some cfi →
    (coalesceMoves r c).1.filter (fun e => e.path == rp)
        = [mkCoalesced rp rfi cp]
      ∧ getk (coalesceMoves r c).2.1 rp = none
      ∧ getk (coalesceMoves r c).2.2 cp = none := by
  intro r
  induction r with
  | nil => intro c _ _ _ _ hr _; simp [getk] at hr
  | cons x rest ih =>
      intro c hnr hnc hur huc hr hc
      obtain ⟨a, b⟩ := x
      simp only [nodupKeys, Bool.and_eq_true] at hnr
      simp only [uniqueIdents, Bool.and_eq_true, List.all_eq_true] at hur
      simp only [getk] at hr
      by_cases hxrp : a = rp
      · subst hxrp
        rw [if_pos rfl] at hr
        injection hr with hr
        subst hr
        have hcm : (cp, cfi) ∈ c := getk_some_mem hc
        have hfil := filter_sameFile_unique hid huc hcm
        have hrestnone : getk rest a = none :=
          Option.isNone_iff_eq_none.mp hnr.1
        have hany : c.any (fun cc => SameFile b cc.2) = true := by
          rw [List.any_eq_true]
          exact ⟨(cp, cfi), hcm, hid⟩
        simp only [coalesceMoves, pairCreated_eq, hfil, List.map_cons,
          List.map_nil, hany, if_pos rfl]
        refine ⟨?_, ?_, ?_⟩
        · rw [List.filter_append, List.filter_cons]
          have hpe : ((mkCoalesced a b cp).path == a) = true := by
            simp [mkCoalesced_path]
          rw [if_pos hpe]
          have hq : (coalesceMoves rest
              (c.filter (fun cc => !SameFile b cc.2))).1.filter
              (fun e => e.path == a) = [] := by
            rw [List.filter_eq_nil_iff]
            intro e he
            rcases coalesceMoves_events rest _ e he with ⟨y, hy, cfp, hmk⟩
            have hya : y.1 ≠ a := fun hh =>
              (getk_none_not_mem hrestnone y hy) hh
            rw [hmk]
            simpa [mkCoalesced_path] using hya
          rw [hq]
          rfl
        · refine not_mem_getk_none (fun y hy hya => ?_)
          have hym := coalesceMoves_removed_mem rest _ y hy
          exact getk_none_not_mem hrestnone y hym hya
        · have hout : getk (c.filter (fun cc => !SameFile b cc.2)) cp
              = none := by
            refine getk_filter_out hnc hc ?_
            simp [hid]
          exact getk_sublist_none (coalesceMoves_created_sublist rest _) hout
      · rw [if_neg hxrp] at hr
        have hrm : (rp, rfi) ∈ rest := getk_some_mem hr
        have hbne : b.ident ≠ rfi.ident := by
          have := hur.1 (rp, rfi) hrm
          simpa [bne_iff_ne] using this
        have hideq : rfi.ident = cfi.ident := by simpa [SameFile] using hid
        have hbcf : SameFile b cfi = false := by
          simp only [SameFile, beq_eq_false_iff_ne, ne_eq]
          rw [← hideq]
          exact hbne
        have hgcp : getk (c.filter (fun cc => !SameFile b cc.2)) cp
            = some cfi := by
          refine getk_filter_first hc ?_
          simp [hbcf]
        have IH := ih hnr.2 (nodupKeys_filter _ hnc) hur.2
          (uniqueIdents_filter _ huc) hr hgcp
        simp only [coalesceMoves, pairCreated_eq]
        refine ⟨?_, ?_, ?_⟩
        · rw [List.filter_append]
          have hhead : ((c.filter (fun cc => SameFile b cc.2)).map
              (fun cc => mkCoalesced a b cc.1)).filter
              (fun e => e.path == rp) = [] := by
            rw [List.filter_eq_nil_iff]
            intro e he
            rcases List.mem_map.mp he with ⟨cc, _, hcc⟩
            rw [← hcc]
            simpa [mkCoalesced_path] using hxrp
          rw [hhead, IH.1]
          rfl
        · split
          · exact IH.2.1
          · simp only [getk]
            rw [if_neg hxrp]
            exact IH.2.1
        · exact IH.2.2

theorem pollEvents_pair_filter (prev curr : Snap) (rp cp : String)
    (rfi cfi : FileInfo)
    (hnp : nodupKeys prev = true) (hnc : nodupKeys curr = true)
    (hur : uniqueIdents (removedSet prev curr) = true)
    (huc : uniqueIdents (createdSet prev curr) = true)
    (hrp : getk prev rp = some rfi) (hrc : getk curr rp = none)
    (hcp : getk curr cp = some cfi) (hcprev : getk prev cp = none)
    (hid : SameFile rfi cfi = true) :
    (pollEvents prev curr).filter (fun e => e.path == rp)
        = [mkCoalesced rp rfi cp]
      ∧ (pollEvents prev curr).filter (fun e => e.path == cp) = [] := by
  have hremr : getk (removedSet prev curr) rp = some rfi := by
    rw [getk_removedSet, hrc, hrp]
    rfl
  have hcrec : getk (createdSet prev curr) cp = some cfi := by
    rw [getk_createdSet, hcprev, hcp]
    rfl
  have hnr2 : nodupKeys (removedSet prev curr) = true :=
    nodupKeys_filter _ hnp
  have hnc2 : nodupKeys (createdSet prev curr) = true :=
    nodupKeys_filter _ hnc
  have hcl := coalesceMoves_unique_pair hid hnr2 hnc2 hur huc hremr hcrec
  have hcrearp : getk (createdSet prev curr) rp = none := by
    rw [getk_createdSet, hrc]
    split <;> rfl
  have hsplit : ∀ q : String, (pollEvents prev curr).filter
      (fun e => e.path == q) =
      (modifyEvents prev curr).filter (fun e => e.path == q)
        ++ (coalesceMoves (removedSet prev curr)
            (createdSet prev curr)).1.filter (fun e => e.path == q)
        ++ ((coalesceMoves (removedSet prev curr)
            (createdSet prev curr)).2.2.map
            (fun c => (⟨c.1, Op.Create, some c.2⟩ : Event))).filter
            (fun e => e.path == q)
        ++ ((coalesceMoves (removedSet prev curr)
            (createdSet prev curr)).2.1.map
            (fun r => (⟨r.1, Op.Remove, some r.2⟩ : Event))).filter
            (fun e => e.path == q) := by
    intro q
    simp only [pollEvents, List.filter_append]
  constructor
  · rw [hsplit rp]
    have h1 := @modifyEvents_filter_none_right prev curr rp hrc
    have h3 : getk (coalesceMoves (removedSet prev curr)
        (createdSet prev curr)).2.2 rp = none :=
      getk_sublist_none (coalesceMoves_created_sublist _ _) hcrearp
    rw [h1, hcl.1, mapEvents_filter_none _ h3, mapEvents_filter_none _ hcl.2.1]
    rfl
  · rw [hsplit cp]
    have h1 := @modifyEvents_filter_none_left prev curr cp hcprev
    have h2 : (coalesceMoves (removedSet prev curr)
        (createdSet prev curr)).1.filter (fun e => e.path == cp) = [] := by
      rw [List.filter_eq_nil_iff]
      intro e he
      rcases coalesceMoves_events _ _ e he with ⟨y, hy, cfp, hmk⟩
      have hyprev : y ∈ prev := List.mem_of_mem_filter hy
      have hne : y.1 ≠ cp := getk_none_not_mem hcprev y hyprev
      rw [hmk]
      simpa [mkCoalesced_path] using hne
    have h4 : getk (coalesceMoves (removedSet prev curr)
        (createdSet prev curr)).2.1 cp = none := by
      refine not_mem_getk_none (fun y hy hyc => ?_)
      have hym := coalesceMoves_removed_mem _ _ y hy
      have hyprev : y ∈ prev := List.mem_of_mem_filter hym
      exact getk_none_not_mem hcprev y hyprev hyc
    rw [h1, h2, mapEvents_filter_none _ hcl.2.2, mapEvents_filter_none _ h4]
    rfl

/-! ## Listing lemmas (claims C2, C8) -/

theorem pathJoin_ne (name c : String) : pathJoin name c ≠ name := by
  intro h
  have h2 := congrArg String.length h
  simp only [pathJoin, String.length_append] at h2
  have h3 : ("/" : String).length = 1 := rfl
  rw [h3] at h2
  omega

theorem getk_addEntries (name k : String) :
    ∀ (rest : List DirEntry) (base : SnapN),
    getk (addEntries name base rest) k =
      (lastInfo name k rest).or (getk base k) := by
  intro rest
  induction rest with
  | nil => intro base; simp [addEntries, lastInfo, Option.none_or]
  | cons d tail ih =>
      intro base
      show getk (addEntries name (setk base (pathJoin name d.name) d.info)
        tail) k = _
      rw [ih]
      rcases hli : lastInfo name k tail with _ | i
      · simp only [lastInfo, hli, Option.none_or]
        rw [getk_setk]
        by_cases hk : k = pathJoin name d.name
        · rw [if_pos hk]
          have hkk : pathJoin name d.name = k := hk.symm
          rw [if_pos hkk]
          rfl
        · rw [if_neg hk]
          have hkk : ¬ (pathJoin name d.name = k) := fun hh => hk hh.symm
          rw [if_neg hkk, Option.none_or]
      · simp only [lastInfo, hli]
        rfl

theorem lastInfo_none_keys {name k : String} : ∀ {rest : List DirEntry},
    lastInfo name k rest = none → ∀ d ∈ rest, pathJoin name d.name ≠ k := by
  intro rest
  induction rest with
  | nil => intro _ d hd; cases hd
  | cons e tail ih =>
      intro h d hd
      simp only [lastInfo] at h
      rcases hli : lastInfo name k tail with _ | i
      · rw [hli] at h
        simp only at h
        rcases List.mem_cons.mp hd with hd1 | hd1
        · subst hd1
          intro hk
          rw [if_pos hk] at h
          cases h
        · exact ih hli d hd1
      · rw [hli] at h
        cases h

theorem lastInfo_some_mem {name k : String} {i : Option FileInfo} :
    ∀ {rest : List DirEntry}, lastInfo name k rest = some i →
    ∃ d ∈ rest, pathJoin name d.name = k ∧ d.info = i := by
  intro rest
  induction rest with
  | nil => intro h; cases h
  | cons e tail ih =>
      intro h
      simp only [lastInfo] at h
      rcases hli : lastInfo name k tail with _ | j
      · rw [hli] at h
        simp only at h
        by_cases hk : pathJoin name e.name = k
        · rw [if_pos hk] at h
          injection h with h
          exact ⟨e, List.mem_cons_self e tail, hk, h⟩
        · rw [if_neg hk] at h
          cases h
      · rw [hli] at h
        simp only at h
        injection h with h
        subst h
        rcases ih hli with ⟨d, hd, hdk, hdi⟩
        exact ⟨d, List.mem_cons_of_mem _ hd, hdk, hdi⟩

theorem lastInfo_agree {name k : String} {d0 : DirEntry} :
    ∀ {rest : List DirEntry}, d0 ∈ rest → pathJoin name d0.name = k →
    (∀ d2 ∈ rest, pathJoin name d2.name = k → d2.info = d0.info) →
    lastInfo name k rest = some d0.info := by
  intro rest
  induction rest with
  | nil => intro hd; cases hd
  | cons e tail ih =>
      intro hd hk hagree
      simp only [lastInfo]
      rcases hli : lastInfo name k tail with _ | i
      · simp only
        rcases List.mem_cons.mp hd with hd1 | hd1
        · subst hd1
          rw [if_pos hk]
        · exact absurd hk (lastInfo_none_keys hli d0 hd1)
      · simp only
        rcases lastInfo_some_mem hli with ⟨d2, hd2, hd2k, hd2i⟩
        rw [hagree d2 (List.mem_cons_of_mem _ hd2) hd2k] at hd2i
        rw [hd2i]

theorem listForName_child_entries (fs : Fs) (name : String) (st : FileInfo)
    (entries : List DirEntry)
    (h1 : fs.stat name = Except.ok st) (h2 : st.isDir = true)
    (h3 : fs.readDir name = Except.ok entries) :
    ∃ l, listForName fs name = Except.ok l
      ∧ getk l name = some (some st)
      ∧ ∀ d ∈ entries,
          (∀ d2 ∈ entries, pathJoin name d2.name = pathJoin name d.name →
            d2.info = d.info) →
          getk l (pathJoin name d.name) = some d.info := by
  refine ⟨addEntries name [(name, some st)] entries, ?_, ?_, ?_⟩
  · simp [listForName, h1, h2, h3]
  · rw [getk_addEntries]
    rcases hli : lastInfo name name entries with _ | i
    · simp [Option.none_or, getk]
    · exfalso
      rcases lastInfo_some_mem hli with ⟨d, _, hdk, _⟩
      exact pathJoin_ne name d.name hdk
  · intro d hd hagree
    rw [getk_addEntries, lastInfo_agree hd rfl hagree]
    rfl

/-! ## Claim theorems -/

/-- Claim C1 (code bug): on a watcher in the Running state (after a
successful `Start`), `Close` is a no-op: its `CompareAndSwap(0, 1)`
guard fails because `Start` already set the flag to 1, so the stop
channel is never closed, the scan loop keeps running, and the `Events`
and `Errors` channels are never closed — a caller draining them blocks
forever instead of observing channel-closed. -/
theorem C1_close_noop_when_running :
    (Start NewWatcher).2 = none
      ∧ (Start NewWatcher).1.running = 1
      ∧ (Start NewWatcher).1.loopRunning = true
      ∧ Close (Start NewWatcher).1 = (Start NewWatcher).1
      ∧ (Close (Start NewWatcher).1).closedCh = false
      ∧ (Close (Start NewWatcher).1).eventsClosed = false
      ∧ (Close (Start NewWatcher).1).errorsClosed = false := by
  decide

/-- Claim C2 (code bug): a registered target whose path no longer
exists (`os.Stat` fails with the not-exist cause) is NOT deregistered
by the scan: `listForName` wraps the stat error with `fmt.Errorf` and a
`%v` verb, producing an untyped string error that `os.IsNotExist` does
not recognise — although it would recognise the unwrapped os error.
The error is still reported on the error stream, but the target stays
registered and its previous snapshot entries are kept. -/
theorem C2_no_self_heal :
    listForAll fsGone ["gone"] [("gone", some fi1)] =
      some ⟨[], [GoErr.fmtError "name gone with error file does not exist"],
        ["gone"], [("gone", some fi1)]⟩
      ∧ isNotExist (GoErr.osPathError "stat" "gone" FsError.notExist) = true
      ∧ isNotExist
          (GoErr.fmtError "name gone with error file does not exist")
          = false :=
  ⟨rfl, rfl, rfl⟩

/-- Claim C3 counterexample: with removed entry `a` (identity token 1)
and two created entries `b`, `c` that both carry identity token 1 (hard
links), the missing `break` in the inner pairing loop lets the
already-paired removed path `a` keep matching: the cycle emits two
coalesced events at `a`, not at most one. -/
theorem C3_counterexample :
    ¬ ((pollEvents [("a", fi1)] [("b", fi2), ("c", fi3)]).countP
        (fun e => e.path == "a" && (e.op == Op.Rename || e.op == Op.Move))
        ≤ 1) := by
  decide

/-- Claim C3 (amended): a created path participates in at most one
pairing — every coalesced event consumes exactly one created entry, so
the number of coalesced events plus the number of surviving created
entries equals the size of the created set, and the surviving created
entries are a sublist of the original set.  A removed path, however,
can yield several coalesced events in one cycle, because the
already-paired removed entry keeps being compared against the remaining
created entries within the same pass (see the counterexample). -/
theorem C3_created_consumed (removed created : Snap) :
    (coalesceMoves removed created).1.length
        + (coalesceMoves removed created).2.2.length = created.length
      ∧ (coalesceMoves removed created).2.2.Sublist created :=
  ⟨coalesceMoves_len removed created,
    coalesceMoves_created_sublist removed created⟩

/-- Claim C4 counterexample: removed entries `a` and `b` are hard links
(both identity token 1) and the created entry `c` also carries identity
token 1.  The pair (`b`, `c`) satisfies identity-token equality, yet
the cycle emits no coalesced event at `b` — `c` was already consumed by
`a` — and `b` is reported as a plain Remove, contradicting the claim. -/
theorem C4_counterexample :
    SameFile fi2 fi3 = true
      ∧ (pollEvents [("a", fi1), ("b", fi2)] [("c", fi3)]).countP
          (fun e => e.path == "b" && (e.op == Op.Rename || e.op == Op.Move))
          = 0
      ∧ (pollEvents [("a", fi1), ("b", fi2)] [("c", fi3)]).countP
          (fun e => e.path == "b" && e.op == Op.Remove) = 1 := by
  decide

/-- Claim C4 (amended): provided identity tokens are unique within the
removed set and within the created set (no hard links), every
removed/created pair with equal identity tokens yields exactly one
event, located at the removed path and carrying the removed entry's
metadata — `Rename` when the two parent directories are equal, `Move`
otherwise — and the created path yields no event at all; in particular
neither path is also reported as plain Create or Remove. -/
theorem C4_amended (prev curr : Snap) (rp cp : String) (rfi cfi : FileInfo)
    (hnp : nodupKeys prev = true) (hnc : nodupKeys curr = true)
    (hur : uniqueIdents (removedSet prev curr) = true)
    (huc : uniqueIdents (createdSet prev curr) = true)
    (hrp : getk prev rp = some rfi) (hrc : getk curr rp = none)
    (hcp : getk curr cp = some cfi) (hcprev : getk prev cp = none)
    (hid : SameFile rfi cfi = true) :
    (pollEvents prev curr).filter (fun e => e.path == rp)
        = [⟨rp, if filepathDir rp = filepathDir cp then Op.Rename
            else Op.Move, some rfi⟩]
      ∧ (pollEvents prev curr).filter (fun e => e.path == cp) = [] :=
  pollEvents_pair_filter prev curr rp cp rfi cfi hnp hnc hur huc hrp hrc
    hcp hcprev hid

/-- Witness for the amended C4 at a concrete same-directory rename
`d/a` → `d/b`. -/
theorem C4_amended_witness :
    (pollEvents [("d/a", fi1)] [("d/b", fi2)]).filter
        (fun e => e.path == "d/a")
        = [⟨"d/a", if filepathDir "d/a" = filepathDir "d/b" then Op.Rename
            else Op.Move, some fi1⟩]
      ∧ (pollEvents [("d/a", fi1)] [("d/b", fi2)]).filter
        (fun e => e.path == "d/b") = [] :=
  C4_amended [("d/a", fi1)] [("d/b", fi2)] "d/a" "d/b" fi1 fi2
    (by decide) (by decide) (by decide) (by decide) (by decide) (by decide)
    (by decide) (by decide) (by decide)

/-- Claim C5 counterexample: diffing `S1 = [d/a ↦ fi1]` against
`S2 = [d/b ↦ fi1]` and against the different snapshot
`S2' = [d/c ↦ fi1]` produces the same single coalesced event at `d/a` —
the event carries only the removed path and the old metadata, not the
destination — so no replay of the event set onto `S1` can reconstruct
`S2`; in particular the spec's replay leaves `d/b` absent. -/
theorem C5_counterexample :
    pollEvents [("d/a", fi1)] [("d/b", fi1)]
        = pollEvents [("d/a", fi1)] [("d/c", fi1)]
      ∧ getk ([("d/b", fi1)] : Snap) "d/b"
        ≠ getk ([("d/c", fi1)] : Snap) "d/b"
      ∧ getk (replayEvents [("d/a", fi1)]
          (pollEvents [("d/a", fi1)] [("d/b", fi1)])) "d/b"
        ≠ getk ([("d/b", fi1)] : Snap) "d/b" := by
  decide

/-- Claim C5 (amended): replaying the cycle's event set onto the old
snapshot reconstructs the new one, provided no removed/created pair
shares an identity token (no Move/Rename events, which are not
replayable from their content) and any path present in both snapshots
with unchanged modification time and size has entirely unchanged
metadata (the diff cannot see a change confined to the other fields). -/
theorem C5_amended (prev curr : Snap)
    (hnp : nodupKeys prev = true) (hnc : nodupKeys curr = true)
    (hno : ∀ r ∈ removedSet prev curr, ∀ c ∈ createdSet prev curr,
      SameFile r.2 c.2 = false)
    (hdet : ∀ pe ∈ prev, ∀ ce ∈ curr, pe.1 = ce.1 →
      pe.2.modTime = ce.2.modTime → pe.2.size = ce.2.size → pe.2 = ce.2)
    (p : String) :
    getk (replayEvents prev (pollEvents prev curr)) p = getk curr p :=
  replay_reconstructs prev curr hnp hnc hno hdet p

/-- Witness for the amended C5: one modified path, one created path. -/
theorem C5_amended_witness :
    getk (replayEvents [("a", fi1)]
        (pollEvents [("a", fi1)] [("a", fiOther), ("x", fiDir)])) "x"
      = getk ([("a", fiOther), ("x", fiDir)] : Snap) "x" :=
  C5_amended [("a", fi1)] [("a", fiOther), ("x", fiDir)]
    (by decide) (by decide) (by decide) (by decide) "x"

/-- Claim C6 (confirmed): for a path present in both snapshots, the
cycle emits a Modify event carrying the current snapshot's metadata iff
the modification time or the size differs between the snapshots, and
such a path is never a candidate for move/rename coalescing: it belongs
to neither the removed nor the created working set. -/
theorem C6_modify_iff (prev curr : Snap) (p : String) (lfi cfi : FileInfo)
    (hp : getk prev p = some lfi) (hc : getk curr p = some cfi) :
    ((⟨p, Op.Modify, some cfi⟩ : Event) ∈ pollEvents prev curr ↔
        (lfi.modTime ≠ cfi.modTime ∨ lfi.size ≠ cfi.size))
      ∧ getk (removedSet prev curr) p = none
      ∧ getk (createdSet prev curr) p = none := by
  refine ⟨⟨?_, ?_⟩, ?_, ?_⟩
  · intro hmem
    have hmod : (⟨p, Op.Modify, some cfi⟩ : Event) ∈
        modifyEvents prev curr := by
      simp only [pollEvents, List.mem_append] at hmem
      rcases hmem with ((hm | hm) | hm) | hm
      · exact hm
      · exfalso
        rcases coalesceMoves_events_op _ _ _ hm with h | h <;>
          simp [Op.Modify, Op.Rename, Op.Move] at h
      · exfalso
        rcases List.mem_map.mp hm with ⟨x, _, hx⟩
        injection hx with h1 h2 h3
        exact absurd h2 (by decide)
      · exfalso
        rcases List.mem_map.mp hm with ⟨x, _, hx⟩
        injection hx with h1 h2 h3
        exact absurd h2 (by decide)
    rcases modifyEvents_mem.mp hmod with ⟨c, hcm, lfi2, hg, hcond, he⟩
    injection he with he1 he2 he3
    rw [← he1] at hg
    rw [hp] at hg
    injection hg with hg
    subst hg
    have hc2 : cfi = c.2 := by
      injection he3
    rw [← hc2] at hcond
    simpa [bne_iff_ne] using hcond
  · intro hd
    have hcm : (p, cfi) ∈ curr := getk_some_mem hc
    have hmod : (⟨p, Op.Modify, some cfi⟩ : Event) ∈
        modifyEvents prev curr := by
      rw [modifyEvents_mem]
      refine ⟨(p, cfi), hcm, lfi, hp, ?_, rfl⟩
      simpa [bne_iff_ne] using hd
    simp only [pollEvents, List.mem_append]
    exact Or.inl (Or.inl (Or.inl hmod))
  · rw [getk_removedSet, hc]
    simp
  · rw [getk_createdSet, hp]
    simp

/-- Witness for C6 at a concrete size change of path `a`. -/
theorem C6_modify_iff_witness :
    ((⟨"a", Op.Modify, some fiOther⟩ : Event)
        ∈ pollEvents [("a", fi1)] [("a", fiOther)] ↔
        (fi1.modTime ≠ fiOther.modTime ∨ fi1.size ≠ fiOther.size))
      ∧ getk (removedSet [("a", fi1)] [("a", fiOther)]) "a" = none
      ∧ getk (createdSet [("a", fi1)] [("a", fiOther)]) "a" = none :=
  C6_modify_iff [("a", fi1)] [("a", fiOther)] "a" fi1 fiOther rfl rfl

/-- Claim C7 counterexample: on an event whose captured metadata is
absent (a nil `os.FileInfo` stored in a non-nil event), `IsDirEvent`
does not return false: the Go method calls `IsDir` on the nil interface
and panics (modelled as `none`). -/
theorem C7_counterexample :
    IsDirEvent (some ⟨"p", Op.Create, none⟩) ≠ some false
      ∧ IsDirEvent (some ⟨"p", Op.Create, none⟩) = none := by
  decide

/-- Claim C7 (amended): `IsDirEvent` returns true iff the captured
metadata is present and marks the path as a directory; a nil event
reference yields false without panicking; but when the event is present
and its metadata is absent, the method panics (nil-interface
dereference) instead of returning false. -/
theorem C7_amended :
    (∀ e : Event, ∀ fi : FileInfo, e.info = some fi →
        (IsDirEvent (some e) = some true ↔ fi.isDir = true))
      ∧ IsDirEvent none = some false
      ∧ (∀ e : Event, e.info = none → IsDirEvent (some e) = none) := by
  refine ⟨?_, rfl, ?_⟩
  · intro e fi hfi
    simp [IsDirEvent, hfi]
  · intro e he
    simp [IsDirEvent, he]

/-- Witness for the amended C7 on a directory event and a file event. -/
theorem C7_amended_witness :
    IsDirEvent (some ⟨"d", Op.Create, some fiDir⟩) = some true
      ∧ IsDirEvent (some ⟨"p", Op.Remove, some fi1⟩) ≠ some true := by
  constructor
  · exact (C7_amended.1 ⟨"d", Op.Create, some fiDir⟩ fiDir rfl).mpr rfl
  · intro h
    have hh := (C7_amended.1 ⟨"p", Op.Remove, some fi1⟩ fi1 rfl).mp h
    exact absurd hh (by decide)

/-- Claim C8 counterexample: listing directory `d` whose child `c`
fails its per-entry stat does NOT leave `d/c` without an entry: the Go
code runs `list[fp], _ = dirEntry.Info()`, so the resulting snapshot
contains an entry for `d/c` mapped to a nil metadata value. -/
theorem C8_counterexample :
    (listForName fsChild "d").toOption.bind (fun l => getk l "d/c")
        = some none
      ∧ (listForName fsChild "d").toOption.bind (fun l => getk l "d/c")
        ≠ none := by
  decide

/-- Claim C8 (amended): when listing a directory target, a direct child
whose per-entry stat fails is still recorded in the snapshot — with nil
(absent) metadata, not omitted — and the listing is not aborted: the
target and every child receive entries (for a child, the entry holds
the metadata of the last directory entry with that joined path). -/
theorem C8_amended (fs : Fs) (name : String) (st : FileInfo)
    (entries : List DirEntry)
    (h1 : fs.stat name = Except.ok st) (h2 : st.isDir = true)
    (h3 : fs.readDir name = Except.ok entries) :
    ∃ l, listForName fs name = Except.ok l
      ∧ getk l name = some (some st)
      ∧ ∀ d ∈ entries,
          (∀ d2 ∈ entries, pathJoin name d2.name = pathJoin name d.name →
            d2.info = d.info) →
          getk l (pathJoin name d.name) = some d.info :=
  listForName_child_entries fs name st entries h1 h2 h3

/-- Witness for the amended C8 at the concrete directory `d`: the
failing child `c` gets an entry with nil metadata and the target keeps
its own. -/
theorem C8_amended_witness :
    getk ((listForName fsChild "d").toOption.getD []) "d/c" = some none
      ∧ getk ((listForName fsChild "d").toOption.getD []) "d"
        = some (some fiDir) := by
  obtain ⟨l, hl, hname, hall⟩ :=
    C8_amended fsChild "d" fiDir entriesD rfl rfl rfl
  rw [hl]
  constructor
  · exact hall ⟨"c", none⟩ (by decide) (by decide)
  · exact hname

/-- Claim C9 (confirmed): every event the diff engine emits has exactly
one Op flag set — one of Create, Remove, Modify, Rename or Move — even
though Op is a bitmask permitting combinations; in particular the Chmod
flag is never set. -/
theorem C9_single_flag (prev curr : Snap) :
    ∀ e ∈ pollEvents prev curr,
      ([Op.Create, Op.Remove, Op.Modify, Op.Rename, Op.Chmod,
          Op.Move].countP (fun f => e.op &&& f != 0) = 1)
        ∧ e.op &&& Op.Chmod = 0
        ∧ (e.op = Op.Create ∨ e.op = Op.Remove ∨ e.op = Op.Modify
            ∨ e.op = Op.Rename ∨ e.op = Op.Move) := by
  intro e he
  have hops : e.op = Op.Create ∨ e.op = Op.Remove ∨ e.op = Op.Modify
      ∨ e.op = Op.Rename ∨ e.op = Op.Move := by
    simp only [pollEvents, List.mem_append] at he
    rcases he with ((hm | hm) | hm) | hm
    · exact Or.inr (Or.inr (Or.inl (modifyEvents_op hm)))
    · rcases coalesceMoves_events_op _ _ _ hm with h | h
      · exact Or.inr (Or.inr (Or.inr (Or.inl h)))
      · exact Or.inr (Or.inr (Or.inr (Or.inr h)))
    · rcases List.mem_map.mp hm with ⟨x, _, hx⟩
      rw [← hx]
      exact Or.inl rfl
    · rcases List.mem_map.mp hm with ⟨x, _, hx⟩
      rw [← hx]
      exact Or.inr (Or.inl rfl)
  refine ⟨?_, ?_, hops⟩ <;>
    rcases hops with h | h | h | h | h <;> rw [h] <;> decide

/-- Witness for C9 at a concrete Remove event. -/
theorem C9_single_flag_witness :
    ([Op.Create, Op.Remove, Op.Modify, Op.Rename, Op.Chmod,
        Op.Move].countP
        (fun f => (Event.mk "a" Op.Remove (some fi1)).op &&& f != 0) = 1)
      ∧ (Event.mk "a" Op.Remove (some fi1)).op &&& Op.Chmod = 0
      ∧ ((Event.mk "a" Op.Remove (some fi1)).op = Op.Create
          ∨ (Event.mk "a" Op.Remove (some fi1)).op = Op.Remove
          ∨ (Event.mk "a" Op.Remove (some fi1)).op = Op.Modify
          ∨ (Event.mk "a" Op.Remove (some fi1)).op = Op.Rename
          ∨ (Event.mk "a" Op.Remove (some fi1)).op = Op.Move) :=
  C9_single_flag [("a", fi1)] [] ⟨"a", Op.Remove, some fi1⟩ (by decide)

/-- Claim C10 (confirmed): within one scan cycle the emitted event list
decomposes into four phases in fixed order: all Modify events, then all
coalesced Rename/Move events, then the remaining Create events, then
the remaining Remove events. -/
theorem C10_phase_order (prev curr : Snap) :
    ∃ m r c d, pollEvents prev curr = m ++ r ++ c ++ d
      ∧ (∀ e ∈ m, e.op = Op.Modify)
      ∧ (∀ e ∈ r, e.op = Op.Rename ∨ e.op = Op.Move)
      ∧ (∀ e ∈ c, e.op = Op.Create)
      ∧ (∀ e ∈ d, e.op = Op.Remove) := by
  have hdecomp : pollEvents prev curr =
      modifyEvents prev curr
        ++ (coalesceMoves (removedSet prev curr) (createdSet prev curr)).1
        ++ ((coalesceMoves (removedSet prev curr)
            (createdSet prev curr)).2.2.map
            (fun x => (⟨x.1, Op.Create, some x.2⟩ : Event)))
        ++ ((coalesceMoves (removedSet prev curr)
            (createdSet prev curr)).2.1.map
            (fun x => (⟨x.1, Op.Remove, some x.2⟩ : Event))) := rfl
  refine ⟨_, _, _, _, hdecomp, ?_, ?_, ?_, ?_⟩
  · exact fun e he => modifyEvents_op he
  · exact coalesceMoves_events_op _ _
  · intro e he
    rcases List.mem_map.mp he with ⟨x, _, hx⟩
    rw [← hx]
  · intro e he
    rcases List.mem_map.mp he with ⟨x, _, hx⟩
    rw [← hx]
